import Mathlib

/-!
Verification of the VC4 GPU submission path (drivers/gpu/drm/vc4) and the
rpi-ft5406 touchscreen polling driver.

The repository subset at hand contains vc4_drv.h (data-structure and function
declarations, the _wait_for macro, and the vc4_first_job inline body) and
drivers/input/touchscreen/rpi-ft5406.c in full.  The bodies of the validator
(vc4_validate.c), the job queue (vc4_gem.c) and the BO cache (vc4_bo.c) are
declared in vc4_drv.h but their implementation files are not part of this
subset; those operations are modelled from the specification, as marked on
each definition.
-/

/-- The validation-error taxonomy of the submission path (spec section 7). -/
inductive ValidationError where
  | InvalidHandle
  | ModeConflict
  | OutOfBounds
  | UniformOverflow
  | TextureOutOfBounds
  | MalformedStream
  | AllocationFailure
  | Timeout
  | HardwareHang
  deriving DecidableEq, Repr

/-! ## Texture and relocation bounds checking (claim C1) -/

/-- Modelled from the spec: the byte extent of a width x height texel grid with
the given row stride and bytes-per-texel, as checked by vc4_check_tex_size
(its body lives in vc4_validate.c, which is not in this source subset).
An empty texture touches no bytes; otherwise the last texel of the last row
ends at (height-1)*stride + width*cpp bytes past the base offset. -/
def texAccessSize (width height stride cpp : Nat) : Nat :=
  if width = 0 ∨ height = 0 then 0
  else (height - 1) * stride + width * cpp

/-- Modelled from the spec: vc4_check_tex_size (declared in vc4_drv.h, body in
the absent vc4_validate.c) validates that the offset combined with
width/height/stride/cpp does not sample outside the BO. -/
def vc4_check_tex_size (bufSize offset width height stride cpp : Nat) : Bool :=
  decide (offset + texAccessSize width height stride cpp ≤ bufSize)

/-- Relocation of a user-relative offset to the resolved buffer's base
address (spec section 4.2 step 3). -/
def relocAddress (paddr offset : Nat) : Nat := paddr + offset

/-- Modelled from the spec: the generic address-relocation check of the
command-list validator (vc4_validate.c is absent): the relocated access must
fit inside the resolved buffer, else the job fails with OutOfBounds. -/
def relocCheck (bufSize paddr offset accessSize : Nat) : Except ValidationError Nat :=
  if offset + accessSize ≤ bufSize then Except.ok (relocAddress paddr offset)
  else Except.error ValidationError.OutOfBounds

/-- Modelled from the spec: relocation of a texture sample's base address,
bounds-checked via vc4_check_tex_size; failure is TextureOutOfBounds. -/
def validateTexSample (bufSize paddr offset width height stride cpp : Nat) :
    Except ValidationError Nat :=
  if vc4_check_tex_size bufSize offset width height stride cpp then
    Except.ok (relocAddress paddr offset)
  else Except.error ValidationError.TextureOutOfBounds

/-! ## Buffer-handle resolution, vc4_use_bo (claim C2) -/

/-- enum vc4_bo_mode from vc4_drv.h. -/
inductive Vc4BoMode where
  | undecided
  | render
  | shader
  deriving DecidableEq, Repr

/-- struct vc4_bo_exec_state from vc4_drv.h: a resolved buffer (identified
here by a numeric id) together with its decided usage mode. -/
structure BoExecState where
  bo : Nat
  mode : Vc4BoMode
  deriving DecidableEq, Repr

/-- Modelled from the spec: vc4_use_bo (declared in vc4_drv.h, body in the
absent vc4_validate.c) resolves handle index hindex in the job's bo table,
failing with InvalidHandle when the index is out of range and with
ModeConflict when the entry's mode was already decided differently; on first
use it decides the entry's mode.  Returns the buffer id and the updated
table. -/
def vc4_use_bo (bos : List BoExecState) (hindex : Nat) (mode : Vc4BoMode) :
    Except ValidationError (Nat × List BoExecState) :=
  match bos[hindex]? with
  | none => Except.error ValidationError.InvalidHandle
  | some st =>
    if st.mode = Vc4BoMode.undecided then
      Except.ok (st.bo, bos.set hindex { st with mode := mode })
    else if st.mode = mode then
      Except.ok (st.bo, bos)
    else
      Except.error ValidationError.ModeConflict

/-! ## Bin control-list structural validation (claim C4) -/

/-- The structural packet kinds the bin-CL validator tracks (vc4_exec_info's
found_tile_binning_mode_config_packet / found_start_tile_binning_packet /
found_increment_semaphore_packet flags in vc4_drv.h); every other packet is
abstracted as draw (a drawing packet) or other. -/
inductive BinPacket where
  | tileBinningModeConfig
  | startTileBinning
  | incrementSemaphore
  | draw
  | other
  deriving DecidableEq, Repr

/-- The three structural-progress flags of struct vc4_exec_info. -/
structure BinClState where
  found_tile_binning_mode_config_packet : Bool
  found_start_tile_binning_packet : Bool
  found_increment_semaphore_packet : Bool
  deriving DecidableEq, Repr

/-- Modelled from the spec: one step of the bin-CL walk (vc4_validate_bin_cl's
body, in the absent vc4_validate.c).  A duplicate tile-binning-mode-config
packet or a drawing packet before the config packet is MalformedStream. -/
def binClStep (st : BinClState) (p : BinPacket) : Except ValidationError BinClState :=
  match p with
  | BinPacket.tileBinningModeConfig =>
    if st.found_tile_binning_mode_config_packet then
      Except.error ValidationError.MalformedStream
    else
      Except.ok { st with found_tile_binning_mode_config_packet := true }
  | BinPacket.startTileBinning =>
    Except.ok { st with found_start_tile_binning_packet := true }
  | BinPacket.incrementSemaphore =>
    Except.ok { st with found_increment_semaphore_packet := true }
  | BinPacket.draw =>
    if st.found_tile_binning_mode_config_packet then Except.ok st
    else Except.error ValidationError.MalformedStream
  | BinPacket.other => Except.ok st

/-- Modelled from the spec: the packet-by-packet walk of the bin control
list, threading the structural flags. -/
def binClWalk (st : BinClState) : List BinPacket → Except ValidationError BinClState
  | [] => Except.ok st
  | p :: rest =>
    match binClStep st p with
    | Except.error e => Except.error e
    | Except.ok st2 => binClWalk st2 rest

/-- Modelled from the spec: vc4_validate_bin_cl (declared in vc4_drv.h, body
in the absent vc4_validate.c).  The stream is accepted only if the walk
succeeds and all three mandatory structural packets were observed. -/
def vc4_validate_bin_cl (stream : List BinPacket) : Except ValidationError BinClState :=
  match binClWalk ⟨false, false, false⟩ stream with
  | Except.error e => Except.error e
  | Except.ok st =>
    if st.found_tile_binning_mode_config_packet
        && st.found_start_tile_binning_packet
        && st.found_increment_semaphore_packet then
      Except.ok st
    else Except.error ValidationError.MalformedStream

/-! ## Job queue, sequence numbers and seqno callbacks (claims C3, C4, C5, C6) -/

/-- struct vc4_seqno_cb from vc4_drv.h: a registered callback with its
threshold seqno.  The id identifies the registration. -/
structure SeqnoCb where
  id : Nat
  seqno : Nat
  deriving DecidableEq, Repr

/-- History record of one callback firing: which registration fired, its
threshold, and the value of finished_seqno at the moment it fired. -/
structure FiredCb where
  id : Nat
  seqno : Nat
  finished_at_fire : Nat
  deriving DecidableEq, Repr

/-- The submission-path state of struct vc4_dev (vc4_drv.h): the two seqno
counters, the active job list (each job abstracted to its seqno), the pending
seqno-callback list, plus history fields (assigned, fired) recording every
seqno ever assigned and every callback firing, used to state the temporal
claims. -/
structure Vc4Dev where
  emit_seqno : Nat
  finished_seqno : Nat
  job_list : List Nat
  seqno_cb_list : List SeqnoCb
  cb_next_id : Nat
  assigned : List Nat
  fired : List FiredCb
  deriving DecidableEq, Repr

/-- The initial device state: both counters start at 0, all lists empty
(vc4_drv.h comments on emit_seqno and finished_seqno). -/
def initDev : Vc4Dev :=
  { emit_seqno := 0, finished_seqno := 0, job_list := [], seqno_cb_list := [],
    cb_next_id := 0, assigned := [], fired := [] }

/-- vc4_first_job from vc4_drv.h: NULL when the job list is empty, else the
first entry of the list. -/
def vc4_first_job (job_list : List Nat) : Option Nat :=
  if h : job_list = [] then none
  else some (job_list.head h)

/-- The job currently programmed into ct0ca/ct1ca: per the vc4_drv.h comment
on job_list, the first job in the list is the one currently set up for
execution. -/
def currentlyExecuting (s : Vc4Dev) : Option Nat :=
  vc4_first_job s.job_list

/-- Modelled from the spec: enqueueing a validated job (vc4_gem.c is absent):
the job is assigned seqno emit_seqno + 1, emit_seqno is advanced, and the job
is appended to the tail of the active job list. -/
def queueJob (s : Vc4Dev) : Vc4Dev :=
  { s with emit_seqno := s.emit_seqno + 1,
           job_list := s.job_list ++ [s.emit_seqno + 1],
           assigned := s.assigned ++ [s.emit_seqno + 1] }

/-- Modelled from the spec: vc4_submit_cl_ioctl (vc4_gem.c is absent): the
stream is validated first; on failure the error is returned and the device
state is untouched, otherwise the job is enqueued and its seqno returned. -/
def vc4_submit_cl (s : Vc4Dev) (stream : List BinPacket) :
    Vc4Dev × Except ValidationError Nat :=
  match vc4_validate_bin_cl stream with
  | Except.error e => (s, Except.error e)
  | Except.ok _ => (queueJob s, Except.ok (s.emit_seqno + 1))

/-- Modelled from the spec: a hardware completion signal for the head job
(vc4_gem.c is absent): finished_seqno advances to at least the head job's
seqno and the job leaves the active list.  With no active job the signal is
ignored. -/
def completeJob (s : Vc4Dev) : Vc4Dev :=
  match s.job_list with
  | [] => s
  | j :: rest =>
    { s with finished_seqno := max s.finished_seqno j, job_list := rest }

/-- Modelled from the spec: hang recovery forcibly retires the currently
executing (head) job; for the seqno state this is the same transition as a
completion signal. -/
def hangRecover (s : Vc4Dev) : Vc4Dev :=
  completeJob s

/-- Modelled from the spec: vc4_queue_seqno_cb (declared in vc4_drv.h, body
in the absent vc4_gem.c) registers a callback with threshold seqno, giving it
a fresh registration id. -/
def registerCb (s : Vc4Dev) (threshold : Nat) : Vc4Dev :=
  { s with seqno_cb_list := s.seqno_cb_list ++ [⟨s.cb_next_id, threshold⟩],
           cb_next_id := s.cb_next_id + 1 }

/-- Modelled from the spec: the deferred worker fires the i-th pending
callback, but only once its threshold is ≤ finished_seqno; a fired callback
is removed from the pending list and recorded in the history.  An ineligible
or missing index leaves the state unchanged. -/
def fireCb (s : Vc4Dev) (i : Nat) : Vc4Dev :=
  match s.seqno_cb_list[i]? with
  | none => s
  | some cb =>
    if cb.seqno ≤ s.finished_seqno then
      { s with seqno_cb_list := s.seqno_cb_list.eraseIdx i,
               fired := s.fired ++ [⟨cb.id, cb.seqno, s.finished_seqno⟩] }
    else s

/-- The reachable device states: everything obtainable from the initial
state by submissions, completion signals, hang recovery, callback
registration and callback firing. -/
inductive Reachable : Vc4Dev → Prop where
  | init : Reachable initDev
  | submit (stream : List BinPacket) {s : Vc4Dev} :
      Reachable s → Reachable (vc4_submit_cl s stream).1
  | complete {s : Vc4Dev} : Reachable s → Reachable (completeJob s)
  | hang {s : Vc4Dev} : Reachable s → Reachable (hangRecover s)
  | register (threshold : Nat) {s : Vc4Dev} :
      Reachable s → Reachable (registerCb s threshold)
  | fire (i : Nat) {s : Vc4Dev} : Reachable s → Reachable (fireCb s i)

/-- The inductive invariant of the submission-path state. -/
structure DevInv (s : Vc4Dev) : Prop where
  fin_le_emit : s.finished_seqno ≤ s.emit_seqno
  jobs_sorted : s.job_list.Pairwise (fun a b => a < b)
  jobs_le_emit : ∀ j ∈ s.job_list, j ≤ s.emit_seqno
  assigned_le_emit : ∀ a ∈ s.assigned, a ≤ s.emit_seqno
  assigned_sorted : s.assigned.Pairwise (fun a b => a < b)
  cb_ids_lt : ∀ cb ∈ s.seqno_cb_list, cb.id < s.cb_next_id
  cb_ids_nodup : (s.seqno_cb_list.map SeqnoCb.id).Nodup
  fired_ids_lt : ∀ r ∈ s.fired, r.id < s.cb_next_id
  fired_ids_nodup : (s.fired.map FiredCb.id).Nodup
  fired_pending_disjoint : ∀ r ∈ s.fired, ∀ cb ∈ s.seqno_cb_list, r.id ≠ cb.id
  fired_ge_threshold :
    ∀ r ∈ s.fired, r.seqno ≤ r.finished_at_fire ∧ r.finished_at_fire ≤ s.finished_seqno

/-- A minimal structurally valid bin control list. -/
def okStream : List BinPacket :=
  [BinPacket.tileBinningModeConfig, BinPacket.startTileBinning,
   BinPacket.incrementSemaphore]

/-! ## BO cache (claims C8, C9) -/

/-- struct vc4_bo (vc4_drv.h) as the cache sees it: identity, byte size and
the time it entered the cache (free_time). -/
structure Vc4Bo where
  id : Nat
  size : Nat
  free_time : Nat
  deriving DecidableEq, Repr

/-- Modelled from the spec: the BO cache state (vc4_bo.c is absent).  The
cache list stands for the size-bucketed free lists, most recently released
buffer first; next_id supplies identities for fresh allocations. -/
structure BoCacheState where
  cache : List Vc4Bo
  next_id : Nat
  deriving DecidableEq, Repr

/-- Modelled from the spec: releasing a buffer into the cache (vc4_bo.c is
absent): the buffer becomes the most recently released entry. -/
def vc4_bo_cache_release (st : BoCacheState) (bo : Vc4Bo) : BoCacheState :=
  { st with cache := bo :: st.cache }

/-- Modelled from the spec: vc4_bo_create (declared in vc4_drv.h, body in the
absent vc4_bo.c): return a cached buffer of exactly the requested size when
one exists (the most recently released one), else allocate fresh. -/
def vc4_bo_create (st : BoCacheState) (size : Nat) : Vc4Bo × BoCacheState :=
  match st.cache.find? (fun b => b.size == size) with
  | some b => (b, { st with cache := st.cache.erase b })
  | none =>
    ({ id := st.next_id, size := size, free_time := 0 },
     { st with next_id := st.next_id + 1 })

/-- Whether a cached buffer has outlived the eviction threshold at time
now: it expired if its free_time plus the threshold lies strictly before
now. -/
def boExpired (now threshold : Nat) (b : Vc4Bo) : Bool :=
  decide (b.free_time + threshold < now)

/-- Modelled from the spec: the age sweep over the age-ordered time_list
(vc4_drv.h's bo_cache.time_list; the sweep body is in the absent vc4_bo.c).
It walks the list oldest-first, freeing expired entries, and stops at the
first entry still within the threshold.  Returns (evicted, remaining). -/
def vc4_bo_cache_free_old (now threshold : Nat) :
    List Vc4Bo → List Vc4Bo × List Vc4Bo
  | [] => ([], [])
  | b :: rest =>
    if boExpired now threshold b then
      let p := vc4_bo_cache_free_old now threshold rest
      (b :: p.1, p.2)
    else ([], b :: rest)

/-! ## The _wait_for macro (claim C7) -/

/-- The errno value -_wait_for times out with. -/
def ETIMEDOUT : Int := 110

/-- Shallow embedding of the _wait_for macro body (vc4_drv.h lines 347-363).
cond gives the value of COND at its n-th evaluation and jif the value of
jiffies at its m-th read, so that the condition may change between the loop
guard and the post-deadline re-check, exactly as the macro's comment warns.
Each loop iteration checks the guard, then the deadline, and after the
deadline expires re-checks the condition once before returning -ETIMEDOUT;
fuel bounds the number of iterations, none meaning the loop has not
terminated within the fuel. -/
def wait_for_loop (cond : Nat → Bool) (jif : Nat → Nat) (deadline : Nat) :
    Nat → Nat → Nat → Option Int
  | 0, _, _ => none
  | fuel + 1, n, m =>
    if cond n then some 0
    else if deadline < jif m then
      if cond (n + 1) then some 0 else some (-ETIMEDOUT)
    else wait_for_loop cond jif deadline fuel (n + 1) (m + 1)

/-! ## rpi-ft5406 touchscreen poll loop (claim C10) -/

/-- MAXIMUM_SUPPORTED_POINTS from rpi-ft5406.c. -/
def MAXIMUM_SUPPORTED_POINTS : Nat := 10

/-- struct ft5406_touch from rpi-ft5406.c: the four coordinate bytes of one
point register (the two reserved bytes are ignored by the thread). -/
structure FtTouch where
  xh : Nat
  xl : Nat
  yh : Nat
  yl : Nat
  deriving DecidableEq, Repr

/-- The touch id extracted in ft5406_thread: (yh >> 4) & 0xf. -/
def ft_touchid (t : FtTouch) : Nat := (t.yh / 16) % 16

/-- The x coordinate computed in ft5406_thread: ((xh & 0xf) << 8) + xl. -/
def ft_x (t : FtTouch) : Nat := (t.xh % 16) * 256 + t.xl

/-- The y coordinate computed in ft5406_thread: ((yh & 0xf) << 8) + yl. -/
def ft_y (t : FtTouch) : Nat := (t.yh % 16) * 256 + t.yl

/-- The guard in ft5406_thread: a register snapshot is processed unless
num_points is 99 (no new information) or num_points is 0 with no known ids
to release. -/
def ft5406_snapshot_processed (num_points known_ids : Nat) : Bool :=
  !(num_points == 99 || (num_points == 0 && known_ids == 0))

/-- The indices i at which the touch loop of ft5406_thread reads
regs.point[i]: the loop runs i = 0 .. num_points - 1 whenever the snapshot
is processed, with no clamping of the device-written num_points byte. -/
def ft5406_point_indices (num_points known_ids : Nat) : List Nat :=
  if ft5406_snapshot_processed num_points known_ids then
    List.range num_points
  else []

/-- The slot ids the touch loop passes to input_mt_slot: the touchid field
of each point entry the loop reads (points models the point array
contents). -/
def ft5406_touch_slots (points : List FtTouch) (num_points known_ids : Nat) :
    List Nat :=
  if ft5406_snapshot_processed num_points known_ids then
    (points.take num_points).map ft_touchid
  else []

/-- The slot ids the release loop of ft5406_thread passes to input_mt_slot:
bits set in known_ids but not in modified_ids, scanned for
i < MAXIMUM_SUPPORTED_POINTS. -/
def ft5406_release_slots (known_ids modified_ids : Nat) : List Nat :=
  (List.range MAXIMUM_SUPPORTED_POINTS).filter
    (fun i => known_ids.testBit i && !(modified_ids.testBit i))

/-! # Theorems -/

/-- Claim C1: for every relocated GPU-memory address in a validated command
stream or texture sample, validation succeeds only if the user-supplied
offset plus the access size (derived from width/height/stride/cpp for
textures) fits in the referenced buffer; otherwise it fails with OutOfBounds
(TextureOutOfBounds for texture samples), and no successful relocation
addresses any byte past the end of the resolved buffer. -/
theorem reloc_never_out_of_bounds :
    (∀ bufSize paddr offset sz a,
        relocCheck bufSize paddr offset sz = Except.ok a →
        offset + sz ≤ bufSize ∧ a + sz ≤ paddr + bufSize)
    ∧ (∀ bufSize paddr offset sz e,
        relocCheck bufSize paddr offset sz = Except.error e →
        e = ValidationError.OutOfBounds ∧ bufSize < offset + sz)
    ∧ (∀ bufSize paddr offset width height stride cpp a,
        validateTexSample bufSize paddr offset width height stride cpp = Except.ok a →
        a = relocAddress paddr offset ∧
        offset + texAccessSize width height stride cpp ≤ bufSize ∧
        ∀ x y, x < width → y < height →
          a + y * stride + x * cpp + cpp ≤ paddr + bufSize)
    ∧ (∀ bufSize paddr offset width height stride cpp e,
        validateTexSample bufSize paddr offset width height stride cpp = Except.error e →
        e = ValidationError.TextureOutOfBounds ∧
        bufSize < offset + texAccessSize width height stride cpp) := by
  refine ⟨?_, ?_, ?_, ?_⟩
  · intro bufSize paddr offset sz a h
    unfold relocCheck at h
    split at h
    · rename_i hle
      cases h
      exact ⟨hle, by unfold relocAddress; omega⟩
    · cases h
  · intro bufSize paddr offset sz e h
    unfold relocCheck at h
    split at h
    · cases h
    · rename_i hgt
      cases h
      exact ⟨rfl, by omega⟩
  · intro bufSize paddr offset width height stride cpp a h
    unfold validateTexSample vc4_check_tex_size at h
    split at h
    · rename_i hc
      have hle : offset + texAccessSize width height stride cpp ≤ bufSize :=
        of_decide_eq_true hc
      cases h
      refine ⟨rfl, hle, ?_⟩
      intro x y hx hy
      have hw : ¬(width = 0 ∨ height = 0) := by omega
      have hsz : texAccessSize width height stride cpp
          = (height - 1) * stride + width * cpp := by
        unfold texAccessSize
        exact if_neg hw
      rw [hsz] at hle
      have hys : y * stride ≤ (height - 1) * stride :=
        Nat.mul_le_mul_right stride (by omega)
      have hxs : x * cpp + cpp ≤ width * cpp := by
        have hx1 : (x + 1) * cpp ≤ width * cpp :=
          Nat.mul_le_mul_right cpp (by omega)
        calc x * cpp + cpp = (x + 1) * cpp := (Nat.succ_mul x cpp).symm
          _ ≤ width * cpp := hx1
      have key : y * stride + (x * cpp + cpp)
          ≤ (height - 1) * stride + width * cpp := Nat.add_le_add hys hxs
      calc relocAddress paddr offset + y * stride + x * cpp + cpp
          = (paddr + offset) + (y * stride + (x * cpp + cpp)) := by
            unfold relocAddress; ring
        _ ≤ (paddr + offset) + ((height - 1) * stride + width * cpp) :=
            Nat.add_le_add_left key _
        _ = paddr + (offset + ((height - 1) * stride + width * cpp)) := by ring
        _ ≤ paddr + bufSize := Nat.add_le_add_left hle _
    · cases h
  · intro bufSize paddr offset width height stride cpp e h
    unfold validateTexSample vc4_check_tex_size at h
    split at h
    · cases h
    · rename_i hc
      have : ¬ (offset + texAccessSize width height stride cpp ≤ bufSize) :=
        of_decide_eq_false (Bool.of_not_eq_true hc)
      cases h
      exact ⟨rfl, by omega⟩

/-- Witness for C1 at concrete inputs: a 5-byte access at offset 2 into a
10-byte buffer at base 100 relocates in bounds. -/
theorem reloc_never_out_of_bounds_witness :
    2 + 5 ≤ 10 ∧ 102 + 5 ≤ 100 + 10 :=
  reloc_never_out_of_bounds.1 10 100 2 5 102 rfl

/-- Claim C2: every handle index referenced in a command stream is either
resolved by vc4_use_bo to a buffer of the submitted handle table (the index
strictly within the table) with a compatible usage mode, or the job fails:
InvalidHandle when the index is out of range, ModeConflict when the handle's
mode was already decided as the other of render/shader; and a handle's mode,
once decided, never changes. -/
theorem use_bo_handle_resolution :
    (∀ bos hindex mode r, vc4_use_bo bos hindex mode = Except.ok r →
        hindex < bos.length ∧ ∃ st, bos[hindex]? = some st ∧ r.1 = st.bo)
    ∧ (∀ bos hindex mode, bos.length ≤ hindex →
        vc4_use_bo bos hindex mode = Except.error ValidationError.InvalidHandle)
    ∧ (∀ bos hindex mode (st : BoExecState), bos[hindex]? = some st →
        st.mode ≠ Vc4BoMode.undecided → st.mode ≠ mode →
        vc4_use_bo bos hindex mode = Except.error ValidationError.ModeConflict)
    ∧ (∀ bos hindex mode r, vc4_use_bo bos hindex mode = Except.ok r →
        ∀ (i : Nat) (st : BoExecState), bos[i]? = some st → st.mode ≠ Vc4BoMode.undecided →
          r.2[i]? = some st)
    ∧ (∀ bos hindex mode r, vc4_use_bo bos hindex mode = Except.ok r →
        ∃ st : BoExecState, r.2[hindex]? = some st ∧ st.mode = mode) := by
  refine ⟨?_, ?_, ?_, ?_, ?_⟩
  · intro bos hindex mode r h
    cases hget : bos[hindex]? with
    | none => simp only [vc4_use_bo, hget] at h; cases h
    | some st =>
      simp only [vc4_use_bo, hget] at h
      have hlt : hindex < bos.length := by
        by_contra hge
        rw [List.getElem?_eq_none (by omega)] at hget
        cases hget
      by_cases hu : st.mode = Vc4BoMode.undecided
      · rw [if_pos hu] at h
        cases h
        exact ⟨hlt, st, rfl, rfl⟩
      · rw [if_neg hu] at h
        by_cases hm : st.mode = mode
        · rw [if_pos hm] at h
          cases h
          exact ⟨hlt, st, rfl, rfl⟩
        · rw [if_neg hm] at h
          cases h
  · intro bos hindex mode hge
    simp only [vc4_use_bo, List.getElem?_eq_none hge]
  · intro bos hindex mode st hget hund hne
    simp only [vc4_use_bo, hget]
    rw [if_neg hund, if_neg hne]
  · intro bos hindex mode r h i st hi hund
    cases hget : bos[hindex]? with
    | none => simp only [vc4_use_bo, hget] at h; cases h
    | some st0 =>
      simp only [vc4_use_bo, hget] at h
      by_cases hu : st0.mode = Vc4BoMode.undecided
      · rw [if_pos hu] at h
        cases h
        by_cases hix : i = hindex
        · subst hix
          rw [hi] at hget
          cases hget
          exact absurd hu hund
        · show (bos.set hindex _)[i]? = some st
          rw [List.getElem?_set_ne (by omega)]
          exact hi
      · rw [if_neg hu] at h
        by_cases hm : st0.mode = mode
        · rw [if_pos hm] at h
          cases h
          exact hi
        · rw [if_neg hm] at h
          cases h
  · intro bos hindex mode r h
    cases hget : bos[hindex]? with
    | none => simp only [vc4_use_bo, hget] at h; cases h
    | some st0 =>
      simp only [vc4_use_bo, hget] at h
      have hlt : hindex < bos.length := by
        by_contra hge
        rw [List.getElem?_eq_none (by omega)] at hget
        cases hget
      by_cases hu : st0.mode = Vc4BoMode.undecided
      · rw [if_pos hu] at h
        cases h
        refine ⟨{ st0 with mode := mode }, ?_, rfl⟩
        show (bos.set hindex _)[hindex]? = some _
        rw [List.getElem?_set_self hlt]
      · rw [if_neg hu] at h
        by_cases hm : st0.mode = mode
        · rw [if_pos hm] at h
          cases h
          exact ⟨st0, hget, hm⟩
        · rw [if_neg hm] at h
          cases h

/-- Witness for C2 at concrete inputs: index 0 out of the empty table fails
with InvalidHandle. -/
theorem use_bo_handle_resolution_witness :
    vc4_use_bo [] 0 Vc4BoMode.render = Except.error ValidationError.InvalidHandle :=
  use_bo_handle_resolution.2.1 [] 0 Vc4BoMode.render (Nat.le_refl 0)

/-- Unfolding equation for one iteration of the _wait_for loop. -/
theorem wait_for_loop_cases (c : Nat → Bool) (j : Nat → Nat) (d fuel n m : Nat) :
    wait_for_loop c j d (fuel + 1) n m
      = if c n then some 0
        else if d < j m then
          (if c (n + 1) then some 0 else some (-ETIMEDOUT))
        else wait_for_loop c j d fuel (n + 1) (m + 1) := rfl

/-- Every value the _wait_for loop returns is 0 or -ETIMEDOUT. -/
theorem wait_for_loop_result (c : Nat → Bool) (j : Nat → Nat) (d : Nat) :
    ∀ fuel n m r, wait_for_loop c j d fuel n m = some r → r = 0 ∨ r = -ETIMEDOUT := by
  intro fuel
  induction fuel with
  | zero => intro n m r h; simp [wait_for_loop] at h
  | succ fuel ih =>
    intro n m r h
    rw [wait_for_loop_cases] at h
    by_cases hc : c n = true
    · rw [if_pos hc] at h; cases h; exact Or.inl rfl
    · rw [if_neg hc] at h
      by_cases hd : d < j m
      · rw [if_pos hd] at h
        by_cases hc2 : c (n + 1) = true
        · rw [if_pos hc2] at h; cases h; exact Or.inl rfl
        · rw [if_neg hc2] at h; cases h; exact Or.inr rfl
      · rw [if_neg hd] at h
        exact ih (n + 1) (m + 1) r h

/-- The _wait_for loop returns 0 only when some evaluation of the condition
came back true. -/
theorem wait_for_loop_zero_sample (c : Nat → Bool) (j : Nat → Nat) (d : Nat) :
    ∀ fuel n m, wait_for_loop c j d fuel n m = some 0 →
      ∃ k, n ≤ k ∧ c k = true := by
  intro fuel
  induction fuel with
  | zero => intro n m h; simp [wait_for_loop] at h
  | succ fuel ih =>
    intro n m h
    rw [wait_for_loop_cases] at h
    by_cases hc : c n = true
    · exact ⟨n, Nat.le_refl n, hc⟩
    · rw [if_neg hc] at h
      by_cases hd : d < j m
      · rw [if_pos hd] at h
        by_cases hc2 : c (n + 1) = true
        · exact ⟨n + 1, by omega, hc2⟩
        · rw [if_neg hc2] at h
          simp [ETIMEDOUT] at h
      · rw [if_neg hd] at h
        obtain ⟨k, hk, hck⟩ := ih (n + 1) (m + 1) h
        exact ⟨k, by omega, hck⟩

/-- The _wait_for loop returns -ETIMEDOUT only when the deadline was observed
to have passed and both the loop guard and the post-deadline re-check saw the
condition false. -/
theorem wait_for_loop_timeout_sample (c : Nat → Bool) (j : Nat → Nat) (d : Nat) :
    ∀ fuel n m, wait_for_loop c j d fuel n m = some (-ETIMEDOUT) →
      ∃ k l, n ≤ k ∧ m ≤ l ∧ d < j l ∧ c k = false ∧ c (k + 1) = false := by
  intro fuel
  induction fuel with
  | zero => intro n m h; simp [wait_for_loop] at h
  | succ fuel ih =>
    intro n m h
    rw [wait_for_loop_cases] at h
    by_cases hc : c n = true
    · rw [if_pos hc] at h
      simp [ETIMEDOUT] at h
    · rw [if_neg hc] at h
      by_cases hd : d < j m
      · rw [if_pos hd] at h
        by_cases hc2 : c (n + 1) = true
        · rw [if_pos hc2] at h
          simp [ETIMEDOUT] at h
        · exact ⟨n, m, Nat.le_refl n, Nat.le_refl m, hd,
            Bool.not_eq_true (c n) ▸ eq_false_of_ne_true hc,
            Bool.not_eq_true (c (n + 1)) ▸ eq_false_of_ne_true hc2⟩
      · rw [if_neg hd] at h
        obtain ⟨k, l, hk, hl, hjl, h1, h2⟩ := ih (n + 1) (m + 1) h
        exact ⟨k, l, by omega, by omega, hjl, h1, h2⟩

/-- With jiffies advancing at least as fast as the read counter, the
_wait_for loop terminates within deadline + 2 iterations. -/
theorem wait_for_loop_terminates (c : Nat → Bool) (j : Nat → Nat) (d : Nat)
    (hj : ∀ i, i ≤ j i) :
    ∀ fuel n m, 1 ≤ fuel → d + 2 ≤ m + fuel →
      wait_for_loop c j d fuel n m ≠ none := by
  intro fuel
  induction fuel with
  | zero => intro n m h1 _; omega
  | succ fuel ih =>
    intro n m _ h2
    rw [wait_for_loop_cases]
    by_cases hc : c n = true
    · simp [hc]
    · rw [if_neg hc]
      by_cases hd : d < j m
      · rw [if_pos hd]
        by_cases hc2 : c (n + 1) = true
        · simp [hc2]
        · simp [hc2]
      · rw [if_neg hd]
        have hm := hj m
        exact ih (n + 1) (m + 1) (by omega) (by omega)

/-- A condition that is never true drives the _wait_for loop into the
-ETIMEDOUT return. -/
theorem wait_for_loop_never_true (c : Nat → Bool) (j : Nat → Nat) (d : Nat)
    (hc : ∀ k, c k = false) (hj : ∀ i, i ≤ j i) :
    ∀ fuel n m, 1 ≤ fuel → d + 2 ≤ m + fuel →
      wait_for_loop c j d fuel n m = some (-ETIMEDOUT) := by
  intro fuel n m h1 h2
  cases hres : wait_for_loop c j d fuel n m with
  | none => exact absurd hres (wait_for_loop_terminates c j d hj fuel n m h1 h2)
  | some r =>
    rcases wait_for_loop_result c j d fuel n m r hres with h0 | hT
    · subst h0
      obtain ⟨k, _, hk⟩ := wait_for_loop_zero_sample c j d fuel n m hres
      rw [hc k] at hk
      cases hk
    · rw [hT]

/-- Claim C7: the wait primitive returns -ETIMEDOUT exactly when the waited
condition is still false after the deadline has passed: the condition is
re-checked once after the deadline expires, so a condition that has become
true yields success (0) even when the deadline was exceeded, a condition
that holds returns success immediately, and under advancing time the loop
never runs forever (it returns within deadline + 2 iterations, with
-ETIMEDOUT when the condition never becomes true). -/
theorem wait_for_timeout_semantics :
    (∀ (c : Nat → Bool) (j : Nat → Nat) (d fuel n m : Nat), c n = true →
        wait_for_loop c j d (fuel + 1) n m = some 0)
    ∧ (∀ (c : Nat → Bool) (j : Nat → Nat) (d fuel n m : Nat),
        c n = false → d < j m → c (n + 1) = true →
        wait_for_loop c j d (fuel + 1) n m = some 0)
    ∧ (∀ (c : Nat → Bool) (j : Nat → Nat) (d fuel n m : Nat) (r : Int),
        wait_for_loop c j d fuel n m = some r → r = 0 ∨ r = -ETIMEDOUT)
    ∧ (∀ (c : Nat → Bool) (j : Nat → Nat) (d fuel n m : Nat),
        wait_for_loop c j d fuel n m = some (-ETIMEDOUT) →
        ∃ k l, n ≤ k ∧ m ≤ l ∧ d < j l ∧ c k = false ∧ c (k + 1) = false)
    ∧ (∀ (c : Nat → Bool) (j : Nat → Nat) (d fuel n m : Nat),
        wait_for_loop c j d fuel n m = some 0 → ∃ k, n ≤ k ∧ c k = true)
    ∧ (∀ (c : Nat → Bool) (j : Nat → Nat) (d fuel n m : Nat),
        (∀ i, i ≤ j i) → 1 ≤ fuel → d + 2 ≤ m + fuel →
        wait_for_loop c j d fuel n m ≠ none)
    ∧ (∀ (c : Nat → Bool) (j : Nat → Nat) (d fuel n m : Nat),
        (∀ k, c k = false) → (∀ i, i ≤ j i) → 1 ≤ fuel → d + 2 ≤ m + fuel →
        wait_for_loop c j d fuel n m = some (-ETIMEDOUT)) := by
  refine ⟨?_, ?_, ?_, ?_, ?_, ?_, ?_⟩
  · intro c j d fuel n m hc
    rw [wait_for_loop_cases, if_pos hc]
  · intro c j d fuel n m hc hd hc2
    rw [wait_for_loop_cases, if_neg (by simp [hc]), if_pos hd, if_pos hc2]
  · intro c j d fuel n m r
    exact wait_for_loop_result c j d fuel n m r
  · intro c j d fuel n m
    exact wait_for_loop_timeout_sample c j d fuel n m
  · intro c j d fuel n m
    exact wait_for_loop_zero_sample c j d fuel n m
  · intro c j d fuel n m hj
    exact wait_for_loop_terminates c j d hj fuel n m
  · intro c j d fuel n m hc hj
    exact wait_for_loop_never_true c j d hc hj fuel n m

/-- Witness for C7 at concrete inputs: a condition that becomes true at the
post-deadline re-check still returns 0, and a never-true condition returns
-ETIMEDOUT once the deadline passes. -/
theorem wait_for_timeout_semantics_witness :
    wait_for_loop (fun k => decide (0 < k)) (fun i => i + 1) 0 (1 + 1) 0 0 = some 0
    ∧ wait_for_loop (fun _ => false) (fun i => i + 1) 0 2 0 0 = some (-ETIMEDOUT) :=
  ⟨wait_for_timeout_semantics.2.1 (fun k => decide (0 < k)) (fun i => i + 1) 0 1 0 0
      rfl (by decide) rfl,
   wait_for_timeout_semantics.2.2.2.2.2.2 (fun _ => false) (fun i => i + 1) 0 2 0 0
      (fun _ => rfl) (fun i => Nat.le_succ i) (by omega) (by omega)⟩

/-- Claim C10 evidence: the touch loop of ft5406_thread trusts the
device-written num_points byte.  A snapshot with num_points = 11 (neither 99
nor 0) is processed and makes the loop read regs.point[10], one entry past
the MAXIMUM_SUPPORTED_POINTS-element array; moreover a processed snapshot
with num_points = 1 whose first point carries yh = 0xA0 passes slot id 10 to
input_mt_slot although only slots 0..9 are initialized.  Only the release
loop is bounded by MAXIMUM_SUPPORTED_POINTS. -/
theorem ft5406_oob_failing_input :
    ft5406_snapshot_processed 11 0 = true
    ∧ 10 ∈ ft5406_point_indices 11 0
    ∧ ¬ (10 < MAXIMUM_SUPPORTED_POINTS)
    ∧ ft5406_snapshot_processed 1 0 = true
    ∧ ft_touchid ⟨0, 0, 160, 0⟩ = 10
    ∧ 10 ∈ ft5406_touch_slots [⟨0, 0, 160, 0⟩] 1 0
    ∧ (∀ s ∈ ft5406_release_slots 1023 0, s < MAXIMUM_SUPPORTED_POINTS) := by
  decide

/-- The freed prefix of the age sweep is the maximal expired prefix of the
age-ordered list. -/
theorem vc4_bo_cache_free_old_fst (now threshold : Nat) (l : List Vc4Bo) :
    (vc4_bo_cache_free_old now threshold l).1
      = l.takeWhile (boExpired now threshold) := by
  induction l with
  | nil => rfl
  | cons b rest ih =>
    cases hb : boExpired now threshold b with
    | true => simp [vc4_bo_cache_free_old, List.takeWhile_cons, hb, ih]
    | false => simp [vc4_bo_cache_free_old, List.takeWhile_cons, hb]

/-- The remainder of the age sweep is everything from the first entry still
within the threshold on. -/
theorem vc4_bo_cache_free_old_snd (now threshold : Nat) (l : List Vc4Bo) :
    (vc4_bo_cache_free_old now threshold l).2
      = l.dropWhile (boExpired now threshold) := by
  induction l with
  | nil => rfl
  | cons b rest ih =>
    cases hb : boExpired now threshold b with
    | true => simp [vc4_bo_cache_free_old, List.dropWhile_cons, hb, ih]
    | false => simp [vc4_bo_cache_free_old, List.dropWhile_cons, hb]

/-- Claim C8: BO cache acquisition returns a cached buffer of exactly the
requested size when one exists, else allocates a fresh buffer; and releasing
a buffer then acquiring its exact size, with no intervening operation,
returns the very same buffer object and restores the cache. -/
theorem bo_cache_acquire_reuse :
    (∀ st size bo st2, vc4_bo_create st size = (bo, st2) →
        (bo ∈ st.cache ∧ bo.size = size)
        ∨ (st.cache.find? (fun b => b.size == size) = none
           ∧ bo.size = size ∧ bo.id = st.next_id ∧ st2.cache = st.cache))
    ∧ (∀ st bo, (vc4_bo_create (vc4_bo_cache_release st bo) bo.size).1 = bo)
    ∧ (∀ st bo, (vc4_bo_create (vc4_bo_cache_release st bo) bo.size).2.cache
        = st.cache) := by
  refine ⟨?_, ?_, ?_⟩
  · intro st size bo st2 h
    cases hf : st.cache.find? (fun b => b.size == size) with
    | some b =>
      simp only [vc4_bo_create, hf] at h
      cases h
      refine Or.inl ⟨List.mem_of_find?_eq_some hf, ?_⟩
      have := List.find?_some hf
      simpa using this
    | none =>
      simp only [vc4_bo_create, hf] at h
      cases h
      exact Or.inr ⟨rfl, rfl, rfl, rfl⟩
  · intro st bo
    simp only [vc4_bo_cache_release, vc4_bo_create]
    rw [List.find?_cons_of_pos _ (by simp)]
  · intro st bo
    simp only [vc4_bo_cache_release, vc4_bo_create]
    rw [List.find?_cons_of_pos _ (by simp)]
    simp [List.erase_cons_head]

/-- Witness for C8 at concrete inputs: acquiring size 4096 from a cache
holding one buffer of that size returns that cached buffer. -/
theorem bo_cache_acquire_reuse_witness :
    ((⟨5, 4096, 7⟩ : Vc4Bo) ∈ [(⟨5, 4096, 7⟩ : Vc4Bo)]
      ∧ (⟨5, 4096, 7⟩ : Vc4Bo).size = 4096)
    ∨ (List.find? (fun b => b.size == 4096) [(⟨5, 4096, 7⟩ : Vc4Bo)] = none
      ∧ (⟨5, 4096, 7⟩ : Vc4Bo).size = 4096 ∧ (⟨5, 4096, 7⟩ : Vc4Bo).id = 9
      ∧ ([] : List Vc4Bo) = [(⟨5, 4096, 7⟩ : Vc4Bo)]) :=
  bo_cache_acquire_reuse.1 ⟨[⟨5, 4096, 7⟩], 9⟩ 4096 ⟨5, 4096, 7⟩ ⟨[], 9⟩ rfl

/-- Claim C9: the cache age sweep scans the age-ordered list as a prefix,
stopping at the first entry still within the threshold; on an age-ordered
list it frees exactly the expired entries, in oldest-first order, and never
evicts a buffer younger than the threshold while an older cached buffer
remains. -/
theorem bo_cache_age_sweep_oldest_first :
    (∀ now threshold l, (vc4_bo_cache_free_old now threshold l).1
        = l.takeWhile (boExpired now threshold)
      ∧ (vc4_bo_cache_free_old now threshold l).2
        = l.dropWhile (boExpired now threshold))
    ∧ (∀ now threshold l, ∀ b ∈ (vc4_bo_cache_free_old now threshold l).1,
        boExpired now threshold b = true)
    ∧ (∀ now threshold l,
        l.Pairwise (fun a b => a.free_time ≤ b.free_time) →
        (vc4_bo_cache_free_old now threshold l).1
          = l.filter (boExpired now threshold)
        ∧ (vc4_bo_cache_free_old now threshold l).2
          = l.filter (fun b => !(boExpired now threshold b)))
    ∧ (∀ now threshold l,
        l.Pairwise (fun a b => a.free_time ≤ b.free_time) →
        ∀ e ∈ (vc4_bo_cache_free_old now threshold l).1,
        ∀ r ∈ (vc4_bo_cache_free_old now threshold l).2,
          e.free_time ≤ r.free_time ∧ boExpired now threshold e = true) := by
  have hmem : ∀ now threshold (l : List Vc4Bo),
      ∀ b ∈ (vc4_bo_cache_free_old now threshold l).1,
      boExpired now threshold b = true := by
    intro now threshold l b hb
    rw [vc4_bo_cache_free_old_fst] at hb
    exact List.mem_takeWhile_imp hb
  refine ⟨?_, hmem, ?_, ?_⟩
  · intro now threshold l
    exact ⟨vc4_bo_cache_free_old_fst now threshold l,
           vc4_bo_cache_free_old_snd now threshold l⟩
  · intro now threshold l hsorted
    induction l with
    | nil => exact ⟨rfl, rfl⟩
    | cons b rest ih =>
      rw [List.pairwise_cons] at hsorted
      obtain ⟨hble, hrest⟩ := hsorted
      cases hb : boExpired now threshold b with
      | true =>
        obtain ⟨ih1, ih2⟩ := ih hrest
        constructor
        · simp [vc4_bo_cache_free_old, hb, List.filter_cons, ih1]
        · simp [vc4_bo_cache_free_old, hb, List.filter_cons, ih2]
      | false =>
        have hall : ∀ x ∈ rest, boExpired now threshold x = false := by
          intro x hx
          have hbx := hble x hx
          unfold boExpired at hb ⊢
          simp only [decide_eq_false_iff_not] at hb ⊢
          omega
        have hfilter1 : List.filter (boExpired now threshold) (b :: rest) = [] := by
          rw [List.filter_eq_nil_iff]
          intro a ha
          rcases List.mem_cons.mp ha with h1 | h2
          · subst h1; simp [hb]
          · simp [hall a h2]
        have hfilter2 : List.filter (fun x => !(boExpired now threshold x)) (b :: rest)
            = b :: rest := by
          rw [List.filter_eq_self]
          intro a ha
          rcases List.mem_cons.mp ha with h1 | h2
          · subst h1; simp [hb]
          · simp [hall a h2]
        constructor
        · rw [hfilter1]
          simp [vc4_bo_cache_free_old, hb]
        · rw [hfilter2]
          simp [vc4_bo_cache_free_old, hb]
  · intro now threshold l hsorted e he r hr
    refine ⟨?_, hmem now threshold l e he⟩
    rw [vc4_bo_cache_free_old_fst] at he
    rw [vc4_bo_cache_free_old_snd] at hr
    have hsplit := List.takeWhile_append_dropWhile (boExpired now threshold) l
    rw [← hsplit] at hsorted
    exact (List.pairwise_append.mp hsorted).2.2 e he r hr

/-- Witness for C9 at concrete inputs: sweeping an age-ordered two-entry
cache at time 4 with threshold 2 frees exactly the expired older entry. -/
theorem bo_cache_age_sweep_oldest_first_witness :
    (vc4_bo_cache_free_old 4 2 [⟨0, 64, 0⟩, ⟨1, 64, 5⟩]).1
      = List.filter (boExpired 4 2) [⟨0, 64, 0⟩, ⟨1, 64, 5⟩]
    ∧ (vc4_bo_cache_free_old 4 2 [⟨0, 64, 0⟩, ⟨1, 64, 5⟩]).2
      = List.filter (fun b => !(boExpired 4 2 b)) [⟨0, 64, 0⟩, ⟨1, 64, 5⟩] :=
  bo_cache_age_sweep_oldest_first.2.2.1 4 2 [⟨0, 64, 0⟩, ⟨1, 64, 5⟩] (by decide)

/-- Every error of a single bin-CL validation step is MalformedStream. -/
theorem binClStep_error_malformed (st : BinClState) (p : BinPacket) (e : ValidationError)
    (h : binClStep st p = Except.error e) : e = ValidationError.MalformedStream := by
  cases p with
  | tileBinningModeConfig =>
    simp only [binClStep] at h
    by_cases hc : st.found_tile_binning_mode_config_packet = true
    · rw [if_pos hc] at h; cases h; rfl
    · rw [if_neg hc] at h; cases h
  | startTileBinning => simp only [binClStep] at h; cases h
  | incrementSemaphore => simp only [binClStep] at h; cases h
  | draw =>
    simp only [binClStep] at h
    by_cases hc : st.found_tile_binning_mode_config_packet = true
    · rw [if_pos hc] at h; cases h
    · rw [if_neg hc] at h; cases h; rfl
  | other => simp only [binClStep] at h; cases h

/-- A bin-CL step on a non-config packet leaves the config flag unchanged. -/
theorem binClStep_ok_config_eq (st st1 : BinClState) (p : BinPacket)
    (h : binClStep st p = Except.ok st1) (hp : p ≠ BinPacket.tileBinningModeConfig) :
    st1.found_tile_binning_mode_config_packet
      = st.found_tile_binning_mode_config_packet := by
  cases p with
  | tileBinningModeConfig => exact absurd rfl hp
  | startTileBinning => simp only [binClStep] at h; cases h; rfl
  | incrementSemaphore => simp only [binClStep] at h; cases h; rfl
  | draw =>
    simp only [binClStep] at h
    by_cases hc : st.found_tile_binning_mode_config_packet = true
    · rw [if_pos hc] at h; cases h; rfl
    · rw [if_neg hc] at h; cases h
  | other => simp only [binClStep] at h; cases h; rfl

/-- A successful config-packet step starts with the flag clear (no
duplicate) and sets it. -/
theorem binClStep_config_ok (st st1 : BinClState)
    (h : binClStep st BinPacket.tileBinningModeConfig = Except.ok st1) :
    st.found_tile_binning_mode_config_packet = false
    ∧ st1.found_tile_binning_mode_config_packet = true := by
  simp only [binClStep] at h
  by_cases hc : st.found_tile_binning_mode_config_packet = true
  · rw [if_pos hc] at h; cases h
  · rw [if_neg hc] at h; cases h
    exact ⟨eq_false_of_ne_true hc, rfl⟩

/-- A successful draw-packet step requires the config flag and changes
nothing. -/
theorem binClStep_draw_ok (st st1 : BinClState)
    (h : binClStep st BinPacket.draw = Except.ok st1) :
    st.found_tile_binning_mode_config_packet = true ∧ st1 = st := by
  simp only [binClStep] at h
  by_cases hc : st.found_tile_binning_mode_config_packet = true
  · rw [if_pos hc] at h; cases h; exact ⟨hc, rfl⟩
  · rw [if_neg hc] at h; cases h

/-- Only the config packet can turn the config flag on. -/
theorem binClStep_config_origin (st st1 : BinClState) (p : BinPacket)
    (h : binClStep st p = Except.ok st1)
    (hf : st1.found_tile_binning_mode_config_packet = true)
    (h0 : st.found_tile_binning_mode_config_packet = false) :
    p = BinPacket.tileBinningModeConfig := by
  by_cases hp : p = BinPacket.tileBinningModeConfig
  · exact hp
  · rw [binClStep_ok_config_eq st st1 p h hp, h0] at hf
    cases hf

/-- Only the start-tile-binning packet can turn the start flag on. -/
theorem binClStep_start_origin (st st1 : BinClState) (p : BinPacket)
    (h : binClStep st p = Except.ok st1)
    (hf : st1.found_start_tile_binning_packet = true)
    (h0 : st.found_start_tile_binning_packet = false) :
    p = BinPacket.startTileBinning := by
  cases p with
  | startTileBinning => rfl
  | tileBinningModeConfig =>
    simp only [binClStep] at h
    by_cases hc : st.found_tile_binning_mode_config_packet = true
    · rw [if_pos hc] at h; cases h
    · rw [if_neg hc] at h; cases h; rw [h0] at hf; cases hf
  | incrementSemaphore =>
    simp only [binClStep] at h; cases h; rw [h0] at hf; cases hf
  | draw =>
    obtain ⟨_, rfl⟩ := binClStep_draw_ok st st1 h
    rw [h0] at hf; cases hf
  | other =>
    simp only [binClStep] at h; cases h; rw [h0] at hf; cases hf

/-- Only the increment-semaphore packet can turn the semaphore flag on. -/
theorem binClStep_sem_origin (st st1 : BinClState) (p : BinPacket)
    (h : binClStep st p = Except.ok st1)
    (hf : st1.found_increment_semaphore_packet = true)
    (h0 : st.found_increment_semaphore_packet = false) :
    p = BinPacket.incrementSemaphore := by
  cases p with
  | incrementSemaphore => rfl
  | tileBinningModeConfig =>
    simp only [binClStep] at h
    by_cases hc : st.found_tile_binning_mode_config_packet = true
    · rw [if_pos hc] at h; cases h
    · rw [if_neg hc] at h; cases h; rw [h0] at hf; cases hf
  | startTileBinning =>
    simp only [binClStep] at h; cases h; rw [h0] at hf; cases hf
  | draw =>
    obtain ⟨_, rfl⟩ := binClStep_draw_ok st st1 h
    rw [h0] at hf; cases hf
  | other =>
    simp only [binClStep] at h; cases h; rw [h0] at hf; cases hf

/-- Every error of the bin-CL walk is MalformedStream. -/
theorem binClWalk_error_malformed (e : ValidationError) :
    ∀ (l : List BinPacket) (st : BinClState),
      binClWalk st l = Except.error e → e = ValidationError.MalformedStream := by
  intro l
  induction l with
  | nil => intro st h; simp only [binClWalk] at h; cases h
  | cons p rest ih =>
    intro st h
    revert h
    cases hs : binClStep st p with
    | error e2 =>
      intro h
      simp only [binClWalk, hs] at h
      injection h with he
      subst he
      exact binClStep_error_malformed st p e2 hs
    | ok st1 =>
      intro h
      simp only [binClWalk, hs] at h
      exact ih st1 h

/-- The bin-CL walk counts config packets into the config flag: a successful
walk saw exactly as many config packets as the flag transition records. -/
theorem binClWalk_config_count :
    ∀ (l : List BinPacket) (st st2 : BinClState),
      binClWalk st l = Except.ok st2 →
      l.countP (fun p => decide (p = BinPacket.tileBinningModeConfig))
          + (if st.found_tile_binning_mode_config_packet then 1 else 0)
        = (if st2.found_tile_binning_mode_config_packet then 1 else 0) := by
  intro l
  induction l with
  | nil =>
    intro st st2 h
    simp only [binClWalk] at h
    cases h
    simp
  | cons p rest ih =>
    intro st st2 h
    revert h
    cases hs : binClStep st p with
    | error e => intro h; simp only [binClWalk, hs] at h; cases h
    | ok st1 =>
      intro h
      simp only [binClWalk, hs] at h
      have hrec := ih st1 st2 h
      rw [List.countP_cons]
      by_cases hp : p = BinPacket.tileBinningModeConfig
      · subst hp
        obtain ⟨h0, h1⟩ := binClStep_config_ok st st1 hs
        rw [h0]
        rw [h1] at hrec
        have e1 : (if (true : Bool) = true then 1 else 0) = 1 := rfl
        have e2 : (if (false : Bool) = true then 1 else 0) = 0 := rfl
        have e3 : (if decide
            (BinPacket.tileBinningModeConfig = BinPacket.tileBinningModeConfig) = true
            then 1 else 0) = 1 := rfl
        rw [e1] at hrec
        rw [e2, e3]
        omega
      · have heq := binClStep_ok_config_eq st st1 p hs hp
        rw [heq] at hrec
        have e4 : (if decide (p = BinPacket.tileBinningModeConfig) = true
            then 1 else 0) = 0 := by simp [hp]
        rw [e4]
        omega

/-- A successful bin-CL walk that ends with the start flag set either began
with it set or contains the start-tile-binning packet. -/
theorem binClWalk_start_mem :
    ∀ (l : List BinPacket) (st st2 : BinClState),
      binClWalk st l = Except.ok st2 →
      st2.found_start_tile_binning_packet = true →
      st.found_start_tile_binning_packet = true
        ∨ BinPacket.startTileBinning ∈ l := by
  intro l
  induction l with
  | nil =>
    intro st st2 h hf
    simp only [binClWalk] at h
    cases h
    exact Or.inl hf
  | cons p rest ih =>
    intro st st2 h hf
    revert h
    cases hs : binClStep st p with
    | error e => intro h; simp only [binClWalk, hs] at h; cases h
    | ok st1 =>
      intro h
      simp only [binClWalk, hs] at h
      rcases ih st1 st2 h hf with h1 | h2
      · by_cases h0 : st.found_start_tile_binning_packet = true
        · exact Or.inl h0
        · have hp := binClStep_start_origin st st1 p hs h1 (eq_false_of_ne_true h0)
          subst hp
          exact Or.inr (List.mem_cons_self _ _)
      · exact Or.inr (List.mem_cons_of_mem p h2)

/-- A successful bin-CL walk that ends with the semaphore flag set either
began with it set or contains the increment-semaphore packet. -/
theorem binClWalk_sem_mem :
    ∀ (l : List BinPacket) (st st2 : BinClState),
      binClWalk st l = Except.ok st2 →
      st2.found_increment_semaphore_packet = true →
      st.found_increment_semaphore_packet = true
        ∨ BinPacket.incrementSemaphore ∈ l := by
  intro l
  induction l with
  | nil =>
    intro st st2 h hf
    simp only [binClWalk] at h
    cases h
    exact Or.inl hf
  | cons p rest ih =>
    intro st st2 h hf
    revert h
    cases hs : binClStep st p with
    | error e => intro h; simp only [binClWalk, hs] at h; cases h
    | ok st1 =>
      intro h
      simp only [binClWalk, hs] at h
      rcases ih st1 st2 h hf with h1 | h2
      · by_cases h0 : st.found_increment_semaphore_packet = true
        · exact Or.inl h0
        · have hp := binClStep_sem_origin st st1 p hs h1 (eq_false_of_ne_true h0)
          subst hp
          exact Or.inr (List.mem_cons_self _ _)
      · exact Or.inr (List.mem_cons_of_mem p h2)

/-- In a successful bin-CL walk, every draw packet is preceded by a config
packet (or the flag was already set at entry). -/
theorem binClWalk_draw_config :
    ∀ (l1 : List BinPacket) (st st2 : BinClState) (l2 : List BinPacket),
      binClWalk st (l1 ++ BinPacket.draw :: l2) = Except.ok st2 →
      st.found_tile_binning_mode_config_packet = true
        ∨ BinPacket.tileBinningModeConfig ∈ l1 := by
  intro l1
  induction l1 with
  | nil =>
    intro st st2 l2 h
    rw [List.nil_append] at h
    revert h
    cases hs : binClStep st BinPacket.draw with
    | error e => intro h; simp only [binClWalk, hs] at h; cases h
    | ok st1 =>
      intro h
      exact Or.inl (binClStep_draw_ok st st1 hs).1
  | cons p l1' ih =>
    intro st st2 l2 h
    rw [List.cons_append] at h
    revert h
    cases hs : binClStep st p with
    | error e => intro h; simp only [binClWalk, hs] at h; cases h
    | ok st1 =>
      intro h
      simp only [binClWalk, hs] at h
      rcases ih st1 st2 l2 h with h1 | h2
      · by_cases h0 : st.found_tile_binning_mode_config_packet = true
        · exact Or.inl h0
        · have hp := binClStep_config_origin st st1 p hs h1 (eq_false_of_ne_true h0)
          subst hp
          exact Or.inr (List.mem_cons_self _ _)
      · exact Or.inr (List.mem_cons_of_mem p h2)

/-- Erasing the i-th callback from a list whose ids are distinct leaves no
callback with the erased one's id. -/
theorem eraseIdx_cb_id_ne :
    ∀ (l : List SeqnoCb) (i : Nat) (cb : SeqnoCb), l[i]? = some cb →
      (l.map SeqnoCb.id).Nodup →
      ∀ cb' ∈ l.eraseIdx i, cb'.id ≠ cb.id := by
  intro l
  induction l with
  | nil => intro i cb h; simp at h
  | cons x xs ih =>
    intro i cb hget hnodup cb' hmem
    have hx : x.id ∉ xs.map SeqnoCb.id :=
      (List.nodup_cons.mp (by simpa using hnodup)).1
    have hxs : (xs.map SeqnoCb.id).Nodup :=
      (List.nodup_cons.mp (by simpa using hnodup)).2
    cases i with
    | zero =>
      rw [List.getElem?_cons_zero] at hget
      injection hget with hxc
      subst hxc
      have hmem' : cb' ∈ xs := by simpa [List.eraseIdx] using hmem
      intro heq
      exact hx (heq ▸ List.mem_map_of_mem SeqnoCb.id hmem')
    | succ j =>
      rw [List.getElem?_cons_succ] at hget
      have hmem' : cb' ∈ x :: xs.eraseIdx j := by
        simpa [List.eraseIdx] using hmem
      rcases List.mem_cons.mp hmem' with h1 | h2
      · subst h1
        intro heq
        exact hx (heq ▸ List.mem_map_of_mem SeqnoCb.id (List.getElem?_mem hget))
      · exact ih j cb hget hxs cb' h2

/-- The invariant holds initially. -/
theorem devInv_init : DevInv initDev := by
  refine ⟨?_, ?_, ?_, ?_, ?_, ?_, ?_, ?_, ?_, ?_, ?_⟩ <;> simp [initDev]

/-- Enqueueing a validated job preserves the invariant. -/
theorem devInv_queueJob (s : Vc4Dev) (h : DevInv s) : DevInv (queueJob s) := by
  refine ⟨?_, ?_, ?_, ?_, ?_, ?_, ?_, ?_, ?_, ?_, ?_⟩
  · exact Nat.le_trans h.fin_le_emit (Nat.le_succ _)
  · refine List.pairwise_append.mpr ⟨h.jobs_sorted, List.pairwise_singleton _ _, ?_⟩
    intro a ha b hb
    have hb' : b = s.emit_seqno + 1 := by simpa using hb
    have := h.jobs_le_emit a ha
    omega
  · intro j hj
    rcases List.mem_append.mp hj with h1 | h2
    · exact Nat.le_trans (h.jobs_le_emit j h1) (Nat.le_succ _)
    · have hje : j = s.emit_seqno + 1 := by simpa using h2
      exact Nat.le_of_eq hje
  · intro a ha
    rcases List.mem_append.mp ha with h1 | h2
    · exact Nat.le_trans (h.assigned_le_emit a h1) (Nat.le_succ _)
    · have hae : a = s.emit_seqno + 1 := by simpa using h2
      exact Nat.le_of_eq hae
  · refine List.pairwise_append.mpr ⟨h.assigned_sorted, List.pairwise_singleton _ _, ?_⟩
    intro a ha b hb
    have hb' : b = s.emit_seqno + 1 := by simpa using hb
    have := h.assigned_le_emit a ha
    omega
  · exact h.cb_ids_lt
  · exact h.cb_ids_nodup
  · exact h.fired_ids_lt
  · exact h.fired_ids_nodup
  · exact h.fired_pending_disjoint
  · exact h.fired_ge_threshold

/-- Submission preserves the invariant (a rejected stream leaves the state
untouched). -/
theorem devInv_submit (s : Vc4Dev) (stream : List BinPacket) (h : DevInv s) :
    DevInv (vc4_submit_cl s stream).1 := by
  cases hv : vc4_validate_bin_cl stream with
  | error e => simpa only [vc4_submit_cl, hv] using h
  | ok st => simpa only [vc4_submit_cl, hv] using devInv_queueJob s h

/-- A completion signal preserves the invariant. -/
theorem devInv_completeJob (s : Vc4Dev) (h : DevInv s) : DevInv (completeJob s) := by
  cases hjl : s.job_list with
  | nil => simpa only [completeJob, hjl] using h
  | cons j rest =>
    have hj_mem : j ∈ s.job_list := by rw [hjl]; exact List.mem_cons_self _ _
    have hj_le : j ≤ s.emit_seqno := h.jobs_le_emit j hj_mem
    have hsorted := h.jobs_sorted
    rw [hjl, List.pairwise_cons] at hsorted
    refine ⟨?_, ?_, ?_, ?_, ?_, ?_, ?_, ?_, ?_, ?_, ?_⟩ <;>
      simp only [completeJob, hjl]
    · exact Nat.max_le.mpr ⟨h.fin_le_emit, hj_le⟩
    · exact hsorted.2
    · intro x hx
      exact h.jobs_le_emit x (by rw [hjl]; exact List.mem_cons_of_mem j hx)
    · exact h.assigned_le_emit
    · exact h.assigned_sorted
    · exact h.cb_ids_lt
    · exact h.cb_ids_nodup
    · exact h.fired_ids_lt
    · exact h.fired_ids_nodup
    · exact h.fired_pending_disjoint
    · intro r hr
      obtain ⟨ht, hf⟩ := h.fired_ge_threshold r hr
      exact ⟨ht, Nat.le_trans hf (Nat.le_max_left _ _)⟩

/-- Hang recovery preserves the invariant. -/
theorem devInv_hangRecover (s : Vc4Dev) (h : DevInv s) : DevInv (hangRecover s) :=
  devInv_completeJob s h

/-- Registering a callback preserves the invariant. -/
theorem devInv_registerCb (s : Vc4Dev) (t : Nat) (h : DevInv s) :
    DevInv (registerCb s t) := by
  have hfresh : ∀ a ∈ s.seqno_cb_list.map SeqnoCb.id, a ≠ s.cb_next_id := by
    intro a ha
    obtain ⟨cb, hcb, rfl⟩ := List.mem_map.mp ha
    exact Nat.ne_of_lt (h.cb_ids_lt cb hcb)
  refine ⟨?_, ?_, ?_, ?_, ?_, ?_, ?_, ?_, ?_, ?_, ?_⟩
  · exact h.fin_le_emit
  · exact h.jobs_sorted
  · exact h.jobs_le_emit
  · exact h.assigned_le_emit
  · exact h.assigned_sorted
  · intro cb hcb
    rcases List.mem_append.mp hcb with h1 | h2
    · exact Nat.lt_trans (h.cb_ids_lt cb h1) (Nat.lt_succ_self _)
    · have : cb = ⟨s.cb_next_id, t⟩ := by simpa using h2
      subst this
      exact Nat.lt_succ_self _
  · show ((s.seqno_cb_list ++ [(⟨s.cb_next_id, t⟩ : SeqnoCb)]).map SeqnoCb.id).Nodup
    rw [List.map_append]
    refine List.Nodup.append h.cb_ids_nodup (by simp) ?_
    simp only [List.map_cons, List.map_nil]
    rw [List.disjoint_singleton]
    intro hmem
    exact hfresh _ hmem rfl
  · intro r hr
    exact Nat.lt_trans (h.fired_ids_lt r hr) (Nat.lt_succ_self _)
  · exact h.fired_ids_nodup
  · intro r hr cb hcb
    rcases List.mem_append.mp hcb with h1 | h2
    · exact h.fired_pending_disjoint r hr cb h1
    · have : cb = ⟨s.cb_next_id, t⟩ := by simpa using h2
      subst this
      exact Nat.ne_of_lt (h.fired_ids_lt r hr)
  · exact h.fired_ge_threshold

/-- Firing an eligible callback preserves the invariant. -/
theorem devInv_fireCb (s : Vc4Dev) (i : Nat) (h : DevInv s) : DevInv (fireCb s i) := by
  cases hget : s.seqno_cb_list[i]? with
  | none => simpa only [fireCb, hget] using h
  | some cb =>
    by_cases hle : cb.seqno ≤ s.finished_seqno
    · have hcb_mem : cb ∈ s.seqno_cb_list := List.getElem?_mem hget
      refine ⟨?_, ?_, ?_, ?_, ?_, ?_, ?_, ?_, ?_, ?_, ?_⟩ <;>
        simp only [fireCb, hget, if_pos hle]
      · exact h.fin_le_emit
      · exact h.jobs_sorted
      · exact h.jobs_le_emit
      · exact h.assigned_le_emit
      · exact h.assigned_sorted
      · intro cb' hcb'
        exact h.cb_ids_lt cb'
          ((List.eraseIdx_sublist s.seqno_cb_list i).subset hcb')
      · exact List.Nodup.sublist
          (List.Sublist.map SeqnoCb.id (List.eraseIdx_sublist s.seqno_cb_list i))
          h.cb_ids_nodup
      · intro r hr
        rcases List.mem_append.mp hr with h1 | h2
        · exact h.fired_ids_lt r h1
        · have : r = ⟨cb.id, cb.seqno, s.finished_seqno⟩ := by simpa using h2
          subst this
          exact h.cb_ids_lt cb hcb_mem
      · show ((s.fired ++ [(⟨cb.id, cb.seqno, s.finished_seqno⟩ : FiredCb)]).map FiredCb.id).Nodup
        rw [List.map_append]
        refine List.Nodup.append h.fired_ids_nodup (by simp) ?_
        simp only [List.map_cons, List.map_nil]
        rw [List.disjoint_singleton]
        intro hmem
        obtain ⟨r, hr, hrid⟩ := List.mem_map.mp hmem
        exact h.fired_pending_disjoint r hr cb hcb_mem hrid
      · intro r hr cb' hcb'
        have hcb'_erase : cb' ∈ s.seqno_cb_list.eraseIdx i := hcb'
        rcases List.mem_append.mp hr with h1 | h2
        · exact h.fired_pending_disjoint r h1 cb'
            ((List.eraseIdx_sublist s.seqno_cb_list i).subset hcb'_erase)
        · have : r = ⟨cb.id, cb.seqno, s.finished_seqno⟩ := by simpa using h2
          subst this
          exact fun heq =>
            eraseIdx_cb_id_ne s.seqno_cb_list i cb hget h.cb_ids_nodup cb'
              hcb'_erase heq.symm
      · intro r hr
        rcases List.mem_append.mp hr with h1 | h2
        · exact h.fired_ge_threshold r h1
        · have : r = ⟨cb.id, cb.seqno, s.finished_seqno⟩ := by simpa using h2
          subst this
          exact ⟨hle, Nat.le_refl _⟩
    · simpa only [fireCb, hget, if_neg hle] using h

/-- Every reachable device state satisfies the invariant. -/
theorem reachable_devInv (s : Vc4Dev) (h : Reachable s) : DevInv s := by
  induction h with
  | init => exact devInv_init
  | submit stream hs ih => exact devInv_submit _ stream ih
  | complete hs ih => exact devInv_completeJob _ ih
  | hang hs ih => exact devInv_hangRecover _ ih
  | register t hs ih => exact devInv_registerCb _ t ih
  | fire i hs ih => exact devInv_fireCb _ i ih

/-- Every error of the full bin-CL validation is MalformedStream. -/
theorem vc4_validate_bin_cl_error_malformed (stream : List BinPacket)
    (e : ValidationError) (h : vc4_validate_bin_cl stream = Except.error e) :
    e = ValidationError.MalformedStream := by
  revert h
  cases hw : binClWalk ⟨false, false, false⟩ stream with
  | error e2 =>
    intro h
    simp only [vc4_validate_bin_cl, hw] at h
    injection h with he
    subst he
    exact binClWalk_error_malformed e2 stream ⟨false, false, false⟩ hw
  | ok stw =>
    intro h
    simp only [vc4_validate_bin_cl, hw] at h
    by_cases hflags : (stw.found_tile_binning_mode_config_packet
        && stw.found_start_tile_binning_packet
        && stw.found_increment_semaphore_packet) = true
    · rw [if_pos hflags] at h; cases h
    · rw [if_neg hflags] at h
      injection h with he
      exact he.symm

/-- Claim C3: emit_seqno and finished_seqno both start at 0; every operation
(submission, completion signal, hang recovery, callback registration and
firing) leaves both monotonically non-decreasing, finished_seqno never
exceeds emit_seqno in any reachable state, and every enqueued job receives a
sequence number strictly greater than every previously assigned one. -/
theorem seqno_counters_invariant :
    initDev.emit_seqno = 0 ∧ initDev.finished_seqno = 0
    ∧ (∀ s, Reachable s → s.finished_seqno ≤ s.emit_seqno)
    ∧ (∀ s stream, s.emit_seqno ≤ (vc4_submit_cl s stream).1.emit_seqno
        ∧ s.finished_seqno ≤ (vc4_submit_cl s stream).1.finished_seqno)
    ∧ (∀ s, s.emit_seqno ≤ (completeJob s).emit_seqno
        ∧ s.finished_seqno ≤ (completeJob s).finished_seqno)
    ∧ (∀ s, s.emit_seqno ≤ (hangRecover s).emit_seqno
        ∧ s.finished_seqno ≤ (hangRecover s).finished_seqno)
    ∧ (∀ s t, s.emit_seqno ≤ (registerCb s t).emit_seqno
        ∧ s.finished_seqno ≤ (registerCb s t).finished_seqno)
    ∧ (∀ s i, s.emit_seqno ≤ (fireCb s i).emit_seqno
        ∧ s.finished_seqno ≤ (fireCb s i).finished_seqno)
    ∧ (∀ s stream n, Reachable s → (vc4_submit_cl s stream).2 = Except.ok n →
        (∀ a ∈ s.assigned, a < n)
        ∧ (vc4_submit_cl s stream).1.assigned = s.assigned ++ [n]) := by
  refine ⟨rfl, rfl, ?_, ?_, ?_, ?_, ?_, ?_, ?_⟩
  · intro s hs
    exact (reachable_devInv s hs).fin_le_emit
  · intro s stream
    cases hv : vc4_validate_bin_cl stream with
    | error e =>
      simp only [vc4_submit_cl, hv]
      exact ⟨Nat.le_refl _, Nat.le_refl _⟩
    | ok st =>
      simp only [vc4_submit_cl, hv]
      exact ⟨Nat.le_succ _, Nat.le_refl _⟩
  · intro s
    cases hjl : s.job_list with
    | nil => simp only [completeJob, hjl]; exact ⟨Nat.le_refl _, Nat.le_refl _⟩
    | cons j rest =>
      simp only [completeJob, hjl]
      exact ⟨Nat.le_refl _, Nat.le_max_left _ _⟩
  · intro s
    unfold hangRecover
    cases hjl : s.job_list with
    | nil => simp only [completeJob, hjl]; exact ⟨Nat.le_refl _, Nat.le_refl _⟩
    | cons j rest =>
      simp only [completeJob, hjl]
      exact ⟨Nat.le_refl _, Nat.le_max_left _ _⟩
  · intro s t
    exact ⟨Nat.le_refl _, Nat.le_refl _⟩
  · intro s i
    cases hget : s.seqno_cb_list[i]? with
    | none => simp only [fireCb, hget]; exact ⟨Nat.le_refl _, Nat.le_refl _⟩
    | some cb =>
      by_cases hle : cb.seqno ≤ s.finished_seqno
      · simp only [fireCb, hget, if_pos hle]; exact ⟨Nat.le_refl _, Nat.le_refl _⟩
      · simp only [fireCb, hget, if_neg hle]; exact ⟨Nat.le_refl _, Nat.le_refl _⟩
  · intro s stream n hs hok
    cases hv : vc4_validate_bin_cl stream with
    | error e => simp only [vc4_submit_cl, hv] at hok; cases hok
    | ok st =>
      simp only [vc4_submit_cl, hv] at hok ⊢
      injection hok with hn
      subst hn
      refine ⟨?_, rfl⟩
      intro a ha
      have := (reachable_devInv s hs).assigned_le_emit a ha
      omega

/-- Witness for C3 at a concrete reachable state: the initial state already
satisfies finished_seqno ≤ emit_seqno. -/
theorem seqno_counters_invariant_witness :
    initDev.finished_seqno ≤ initDev.emit_seqno :=
  seqno_counters_invariant.2.2.1 initDev Reachable.init

/-- Claim C4: a submitted command stream is accepted only if validation saw
exactly one tile-binning-mode-config packet, every drawing packet came after
it, and a start-tile-binning and an increment-semaphore packet were
observed; otherwise submission fails with MalformedStream and the device
state is unchanged: emit_seqno is not incremented and the job list is not
modified. -/
theorem malformed_stream_rejected_atomically :
    (∀ stream st, vc4_validate_bin_cl stream = Except.ok st →
        stream.countP (fun p => decide (p = BinPacket.tileBinningModeConfig)) = 1
        ∧ (∀ l1 l2, stream = l1 ++ BinPacket.draw :: l2 →
            BinPacket.tileBinningModeConfig ∈ l1)
        ∧ BinPacket.startTileBinning ∈ stream
        ∧ BinPacket.incrementSemaphore ∈ stream)
    ∧ (∀ stream e, vc4_validate_bin_cl stream = Except.error e →
        e = ValidationError.MalformedStream)
    ∧ (∀ s stream e, (vc4_submit_cl s stream).2 = Except.error e →
        (vc4_submit_cl s stream).1 = s
        ∧ (vc4_submit_cl s stream).1.emit_seqno = s.emit_seqno
        ∧ (vc4_submit_cl s stream).1.job_list = s.job_list
        ∧ e = ValidationError.MalformedStream) := by
  refine ⟨?_, vc4_validate_bin_cl_error_malformed, ?_⟩
  · intro stream st h
    revert h
    cases hw : binClWalk ⟨false, false, false⟩ stream with
    | error e =>
      intro h
      simp only [vc4_validate_bin_cl, hw] at h
      cases h
    | ok stw =>
      intro h
      simp only [vc4_validate_bin_cl, hw] at h
      by_cases hflags : (stw.found_tile_binning_mode_config_packet
          && stw.found_start_tile_binning_packet
          && stw.found_increment_semaphore_packet) = true
      · simp only [Bool.and_eq_true] at hflags
        obtain ⟨⟨hcfg, hstart⟩, hsem⟩ := hflags
        refine ⟨?_, ?_, ?_, ?_⟩
        · have hcount := binClWalk_config_count stream ⟨false, false, false⟩ stw hw
          rw [hcfg] at hcount
          simpa using hcount
        · intro l1 l2 heq
          rw [heq] at hw
          rcases binClWalk_draw_config l1 ⟨false, false, false⟩ stw l2 hw with h1 | h2
          · simp at h1
          · exact h2
        · rcases binClWalk_start_mem stream ⟨false, false, false⟩ stw hw hstart
              with h1 | h2
          · simp at h1
          · exact h2
        · rcases binClWalk_sem_mem stream ⟨false, false, false⟩ stw hw hsem
              with h1 | h2
          · simp at h1
          · exact h2
      · rw [if_neg hflags] at h
        cases h
  · intro s stream e h
    cases hv : vc4_validate_bin_cl stream with
    | error e2 =>
      simp only [vc4_submit_cl, hv] at h ⊢
      injection h with he
      subst he
      exact ⟨trivial, trivial, trivial, vc4_validate_bin_cl_error_malformed stream e2 hv⟩
    | ok st =>
      simp only [vc4_submit_cl, hv] at h
      cases h

/-- Witness for C4 at a concrete input: the empty stream (missing all
mandatory packets) is rejected with MalformedStream leaving the initial
state untouched. -/
theorem malformed_stream_rejected_atomically_witness :
    (vc4_submit_cl initDev []).1 = initDev
    ∧ (vc4_submit_cl initDev []).1.emit_seqno = initDev.emit_seqno
    ∧ (vc4_submit_cl initDev []).1.job_list = initDev.job_list
    ∧ ValidationError.MalformedStream = ValidationError.MalformedStream :=
  malformed_stream_rejected_atomically.2.2 initDev [] ValidationError.MalformedStream rfl

/-- Claim C5: vc4_first_job returns the first entry of the active job list,
or none exactly when the list is empty; the currently executing slot is this
head entry (so it is unique), and in every reachable state the queue is
strictly sorted by sequence number, so no job other than the head (the
minimal seqno) is ever dispatched. -/
theorem first_job_head_of_fifo_queue :
    (∀ jl : List Nat, vc4_first_job jl = none ↔ jl = [])
    ∧ (∀ (jl : List Nat) (j : Nat), vc4_first_job jl = some j ↔ jl.head? = some j)
    ∧ (∀ s : Vc4Dev, currentlyExecuting s = vc4_first_job s.job_list)
    ∧ (∀ s, Reachable s → s.job_list.Pairwise (fun a b => a < b))
    ∧ (∀ s, Reachable s → ∀ (hd j : Nat), vc4_first_job s.job_list = some hd →
        j ∈ s.job_list → hd ≤ j) := by
  refine ⟨?_, ?_, fun s => rfl, ?_, ?_⟩
  · intro jl
    cases jl with
    | nil => simp [vc4_first_job]
    | cons a l => simp [vc4_first_job]
  · intro jl j
    cases jl with
    | nil => simp [vc4_first_job]
    | cons a l => simp [vc4_first_job]
  · intro s hs
    exact (reachable_devInv s hs).jobs_sorted
  · intro s hs hd j hhd hj
    have hsorted := (reachable_devInv s hs).jobs_sorted
    cases hjl : s.job_list with
    | nil =>
      rw [hjl] at hhd
      simp [vc4_first_job] at hhd
    | cons a rest =>
      rw [hjl] at hhd hj hsorted
      have hda : a = hd := by simpa [vc4_first_job] using hhd
      rw [List.pairwise_cons] at hsorted
      rcases List.mem_cons.mp hj with h1 | h2
      · omega
      · have := hsorted.1 j h2
        omega

/-- Witness for C5 at a concrete reachable state: after two accepted
submissions the head job (seqno 1) has the least seqno, below job 2. -/
theorem first_job_head_of_fifo_queue_witness : (1 : Nat) ≤ 2 :=
  first_job_head_of_fifo_queue.2.2.2.2
    (vc4_submit_cl (vc4_submit_cl initDev okStream).1 okStream).1
    (Reachable.submit okStream (Reachable.submit okStream Reachable.init))
    1 2 (by decide) (by decide)

/-- Claim C6: every registered seqno callback fires at most once over the
system's lifetime (fired registration ids are distinct), it fires only in a
state where finished_seqno has reached its threshold (and finished_seqno
only grows afterwards), an ineligible callback is never fired, and callbacks
need not fire in registration order (a reachable state exists where the
later-registered callback has fired while the earlier one is still
pending). -/
theorem seqno_cb_fires_once_at_threshold :
    (∀ s, Reachable s → (s.fired.map FiredCb.id).Nodup)
    ∧ (∀ s, Reachable s → ∀ r ∈ s.fired,
        r.seqno ≤ r.finished_at_fire ∧ r.finished_at_fire ≤ s.finished_seqno)
    ∧ (∀ (s : Vc4Dev) (i : Nat) (cb : SeqnoCb), s.seqno_cb_list[i]? = some cb →
        s.finished_seqno < cb.seqno → fireCb s i = s)
    ∧ (∃ s, Reachable s ∧ (∃ r ∈ s.fired, r.id = 1)
        ∧ (∃ cb ∈ s.seqno_cb_list, cb.id = 0)) := by
  refine ⟨?_, ?_, ?_, ?_⟩
  · intro s hs
    exact (reachable_devInv s hs).fired_ids_nodup
  · intro s hs
    exact (reachable_devInv s hs).fired_ge_threshold
  · intro s i cb hget hlt
    simp only [fireCb, hget, if_neg (by omega : ¬ cb.seqno ≤ s.finished_seqno)]
  · refine ⟨fireCb (completeJob
        (vc4_submit_cl (registerCb (registerCb initDev 5) 1) okStream).1) 1,
      ?_, ?_, ?_⟩
    · exact Reachable.fire 1 (Reachable.complete (Reachable.submit okStream
        (Reachable.register 1 (Reachable.register 5 Reachable.init))))
    · decide
    · decide

/-- Witness for C6 at a concrete input: a callback with threshold 5
registered in the initial state (finished_seqno = 0) does not fire. -/
theorem seqno_cb_fires_once_at_threshold_witness :
    fireCb (registerCb initDev 5) 0 = registerCb initDev 5 :=
  seqno_cb_fires_once_at_threshold.2.2.1 (registerCb initDev 5) 0 ⟨0, 5⟩
    (by decide) (by decide)
